import Mathlib

/-!
Shallow embedding of the segmentation / pattern-matching engine of
`thai_reading_order.py` (class `ThaiReadingOrderAnalyzer`).

Modelling conventions:
* a Python string is a `List Char`, indexed by code point exactly as Python does;
* the loaded foundation-consonant set (`self.foundation`) and the vowel-pattern
  catalog (`self.vowel_patterns`) are parameters `fset : List Char` and
  `patterns : List (List Char)`; membership is the only operation the source
  performs on them, so a list models the Python set faithfully;
* `self.tone_marks` is the fixed four-element set `toneMarks`;
* the Python `set` of used positions is a `Finset Nat`;
* duck-typed result dictionaries become structures with the same field names;
* the unbounded Python recursion `explore_segmentations` becomes a fuel-indexed
  recursion; `rawReadings` runs it with fuel `text.length + 1`, which is shown
  sufficient (the fuel-stabilisation theorem for claim C9).
-/

namespace ThaiRO

/-- The four Thai tone-mark diacritics (`self.tone_marks` in the source). -/
def toneMarks : List Char := ['่', '้', '๊', '๋']

/-- Foundation container: consonant(s) with optional tone mark, the dictionary
built by `match_foundation` in the source (same field names). -/
structure Foundation where
  consonants : List Char
  tone : Option Char
  tone_owner : Option Nat
  positions : List Nat
deriving DecidableEq, Repr

/-- The freshly initialised foundation dictionary of `match_foundation`. -/
def emptyFoundation : Foundation := ⟨[], none, none, []⟩

/-- The `while consonants_found < consonant_count and idx < len(text)` loop of
`match_foundation`, with `rem` the number of consonants still to find.  After
each consumed consonant the loop attaches a tone mark standing immediately
after it (overwriting any earlier `tone`/`tone_owner` assignment, as the
source's plain dictionary writes do).  When the loop stops with `rem > 0`
the source's final `consonants_found != consonant_count` check fails the
match, hence `none` in the `idx ≥ len` branch. -/
def match_foundationAux (fset text : List Char) : Nat → Nat → Foundation → Option Foundation
  | _, 0, acc => some acc
  | idx, rem + 1, acc =>
    if idx < text.length then
      if text.getD idx default ∈ fset then
        let acc1 : Foundation :=
          { acc with consonants := acc.consonants ++ [text.getD idx default],
                     positions := acc.positions ++ [idx] }
        if idx + 1 < text.length ∧ text.getD (idx + 1) default ∈ toneMarks then
          match_foundationAux fset text (idx + 2) rem
            { acc1 with tone := some (text.getD (idx + 1) default),
                        tone_owner := some acc.consonants.length,
                        positions := acc1.positions ++ [idx + 1] }
        else
          match_foundationAux fset text (idx + 1) rem acc1
      else none
    else none

/-- Embedding of `match_foundation(self, text, start_pos, consonant_count)`,
including its leading `start_pos < 0 or start_pos >= len(text)` guard
(`start_pos` is an `Int` because the template matcher may hand it a negative
cursor). -/
def match_foundation (fset text : List Char) (start_pos : Int) (consonant_count : Nat) :
    Option Foundation :=
  if start_pos < 0 ∨ (text.length : Int) ≤ start_pos then none
  else match_foundationAux fset text start_pos.toNat consonant_count emptyFoundation

/-- The local mutable state of `try_match_pattern_with_foundation`:
`foundation`, `final_foundation`, `vowel_text` and `positions`. -/
structure MState where
  foundation : Option Foundation
  final : Option Foundation
  vowel_text : List Char
  positions : List Nat
deriving DecidableEq, Repr

/-- Initial state of the template-matching walk. -/
def emptyMState : MState := ⟨none, none, [], []⟩

/-- A successful pattern match, the dictionary returned by
`try_match_pattern_with_foundation` (same field names; `final_foundation` is
stored under the key `final`, as in the source's return value). -/
structure PMatch where
  pattern : List Char
  foundation : Option Foundation
  vowel_text : List Char
  final : Option Foundation
  positions : List Nat
deriving DecidableEq, Repr

/-- The `while pattern_idx < len(pattern)` loop of
`try_match_pattern_with_foundation`.  Each iteration first performs the
source's `text_idx < 0 or text_idx >= len(text)` bounds check; the literal
branch's additional in-range test is subsumed by that check, exactly as in the
source where it can only re-confirm it.  On `x`/`f` the cursor jumps to
`foundation['positions'][-1] + 1` when positions were consumed, else advances
by one. -/
def try_matchAux (fset text : List Char) (cluster_size : Nat) :
    List Char → Int → MState → Option MState
  | [], _, st => some st
  | p :: ps, text_idx, st =>
    if text_idx < 0 ∨ (text.length : Int) ≤ text_idx then none
    else
      if p = 'x' then
        match match_foundation fset text text_idx cluster_size with
        | none => none
        | some f =>
          let next : Int :=
            match f.positions.getLast? with
            | some q => (q : Int) + 1
            | none => text_idx + 1
          try_matchAux fset text cluster_size ps next
            { st with foundation := some f, positions := st.positions ++ f.positions }
      else if p = 'f' then
        match match_foundation fset text text_idx 1 with
        | none => none
        | some f =>
          let next : Int :=
            match f.positions.getLast? with
            | some q => (q : Int) + 1
            | none => text_idx + 1
          try_matchAux fset text cluster_size ps next
            { st with final := some f, positions := st.positions ++ f.positions }
      else
        if text.getD text_idx.toNat default = p then
          try_matchAux fset text cluster_size ps (text_idx + 1)
            { st with vowel_text := st.vowel_text ++ [p],
                      positions := st.positions ++ [text_idx.toNat] }
        else none

/-- Embedding of `try_match_pattern_with_foundation(self, text, start_pos,
pattern, used, cluster_size)`.  The `used` parameter is accepted but never read, exactly as in
the source.  The trailing `pattern_idx != len(pattern)` re-check of the source
is dead code (the loop always runs to completion) and has no counterpart. -/
def try_match_pattern_with_foundation (fset text : List Char) (start_pos : Int)
    (pattern : List Char) (used : Finset Nat) (cluster_size : Nat) : Option PMatch :=
  (try_matchAux fset text cluster_size pattern start_pos emptyMState).map fun st =>
    { pattern := pattern, foundation := st.foundation, vowel_text := st.vowel_text,
      final := st.final, positions := st.positions }

/-- Embedding of `find_pattern_matches(self, text, pattern, used)`: every start position in
`range(-5, len(text))`; for patterns containing `x` every cluster size in
`range(1, min(3, len(text)) + 1)`, otherwise a single attempt with cluster
size 0; successful matches are kept when their positions avoid `used`. -/
def find_pattern_matches (fset text : List Char) (pattern : List Char) (used : Finset Nat) :
    List PMatch :=
  (List.range (text.length + 5)).flatMap fun i =>
    let start_pos : Int := (i : Int) - 5
    if 'x' ∈ pattern then
      (List.range (min 3 text.length)).flatMap fun j =>
        match try_match_pattern_with_foundation fset text start_pos pattern used (j + 1) with
        | some m => if ∀ q ∈ m.positions, q ∉ used then [m] else []
        | none => []
    else
      match try_match_pattern_with_foundation fset text start_pos pattern used 0 with
      | some m => if ∀ q ∈ m.positions, q ∉ used then [m] else []
      | none => []

/-- The `while pos < text_len and pos in used: pos += 1` scan of
`explore_segmentations`, written with the explicit step budget
`text_len - pos` (the loop advances `pos` one step at a time, so that budget
is exact). -/
def skipUsedAux (used : Finset Nat) : Nat → Nat → Nat
  | 0, pos => pos
  | steps + 1, pos => if pos ∈ used then skipUsedAux used steps (pos + 1) else pos

/-- First position `≥ pos` that is `< text_len` and unused (or the first
position `≥ text_len` reached by the scan). -/
def skipUsed (text_len : Nat) (used : Finset Nat) (pos : Nat) : Nat :=
  skipUsedAux used (text_len - pos) pos

/-- One syllable dictionary as appended to `current_reading` by
`explore_segmentations` (keys `foundation`, `vowel`, `final`, `pattern`).
Note that the match's own flat `positions` list is *not* stored, though the
foundation and final containers keep theirs. -/
structure Syllable where
  foundation : Option Foundation
  vowel : List Char
  final : Option Foundation
  pattern : List Char
deriving DecidableEq, Repr

/-- Projection from a raw match to the stored syllable dictionary. -/
def toSyllable (m : PMatch) : Syllable :=
  { foundation := m.foundation, vowel := m.vowel_text, final := m.final, pattern := m.pattern }

/-- Embedding of `explore_segmentations(pos, used, current_reading)`, the recursive
backtracking search.  The Python recursion is unbounded; here a fuel argument
indexes the recursion depth (each recursive call passes `pos = 0`, grows
`used` and appends to `current_reading`, exactly as the source).  The returned
list is `all_readings` restricted to this subtree, in the source's
depth-first append order, except that the elements are the full matches; the
source stores only the `toSyllable` projection, whose sole use inside the
search is the `len(current_reading) == 1` test, so projecting at collection
time (`allProjReadings` below) yields the identical `all_readings`.  The
source's `found_any` local is written but never read and has no counterpart. -/
def explore_segmentations (fset : List Char) (patterns : List (List Char)) (text : List Char) :
    Nat → Nat → Finset Nat → List PMatch → List (List PMatch)
  | 0, _, _, _ => []
  | fuel + 1, pos, used, current_reading =>
    if used.card = text.length then
      if current_reading.length = 1 then [current_reading] else []
    else
      let p := skipUsed text.length used pos
      if text.length ≤ p then []
      else
        patterns.flatMap fun pattern =>
          (find_pattern_matches fset text pattern used).flatMap fun m =>
            if p ∈ m.positions then
              explore_segmentations fset patterns text fuel 0 (used ∪ m.positions.toFinset)
                (current_reading ++ [m])
            else []

/-- The complete run `explore_segmentations(0, set(), [])`, with fuel
`text.length + 1` (shown sufficient by the C9 stabilisation theorem). -/
def rawReadings (fset : List Char) (patterns : List (List Char)) (text : List Char) :
    List (List PMatch) :=
  explore_segmentations fset patterns text (text.length + 1) 0 ∅ []

/-- The list `all_readings` as the deduplication loop sees it: each raw reading is the
list of stored syllable dictionaries. -/
def allProjReadings (fset : List Char) (patterns : List (List Char)) (text : List Char) :
    List (List Syllable) :=
  (rawReadings fset patterns text).map (List.map toSyllable)

/-- The `reading_str = str(reading); if reading_str not in seen` loop.  `str`
on these dictionaries (fixed key order, values built from strings, ints,
`None` and lists thereof) is a faithful representation, so string equality of
two readings coincides with structural equality of the `Syllable` lists —
including the `positions` lists stored inside foundation and final
containers, which `str(reading)` prints. -/
def dedupReadings : List (List Syllable) → List (List Syllable) → List (List Syllable)
  | [], _ => []
  | r :: rest, seen =>
    if r ∈ seen then dedupReadings rest seen
    else r :: dedupReadings rest (r :: seen)

/-- Embedding of `render_foundation(self, foundation)`: consonants in order, with the tone
character inserted straight after the owner consonant.  The Python truthiness
tests `not foundation or not foundation.get('consonants')` and
`foundation.get('tone') and foundation.get('tone_owner') == i` become the
`none`/empty-list and `Option` pattern checks below. -/
def render_foundation : Option Foundation → List Char
  | none => []
  | some f =>
    if f.consonants = [] then []
    else
      f.consonants.enum.flatMap fun ic =>
        match f.tone with
        | some t => if f.tone_owner = some ic.1 then [ic.2, t] else [ic.2]
        | none => [ic.2]

/-- One entry of `unique_readings`: the syllable list plus the rendered
`reading_order` and `matched_text`. -/
structure Reading where
  syllables : List Syllable
  reading_order : List (List Char)
  matched_text : List Char
deriving DecidableEq, Repr

/-- The token list a single syllable contributes to `reading_order`; the same
strings are appended to `matched_text_parts` (the source pushes identical
values to both lists, so one token list serves both).  A rendered foundation
is appended only when non-empty (Python string truthiness); the vowel only
when non-empty; a final's rendering is appended whenever the final container
exists (a non-`None` dictionary is truthy). -/
def syllableTokens (s : Syllable) : List (List Char) :=
  (match render_foundation s.foundation with
   | [] => []
   | ft => [ft]) ++
  (match s.vowel with
   | [] => []
   | v => [v]) ++
  (match s.final with
   | some _ => [render_foundation s.final]
   | none => [])

/-- Builds one `unique_readings` entry from a deduplicated raw reading. -/
def buildReading (reading : List Syllable) : Reading :=
  let tokens := reading.flatMap syllableTokens
  { syllables := reading, reading_order := tokens, matched_text := tokens.flatten }

/-- The dictionary returned by `findThaiGraphemeOrderDomain` (field names as in
the source; `text` is the analysed input). -/
structure SegResult where
  text : List Char
  readings : List Reading
  is_ambiguous : Bool
  unmatched : List Nat
deriving DecidableEq, Repr

/-- Embedding of `findThaiGraphemeOrderDomain(self, text)`: empty input short-circuits;
otherwise run the search, deduplicate by representation equality and build the
result entries.  The source interleaves deduplication and entry building in
one loop; mapping `buildReading` over the deduplicated list is the same
computation. -/
def findThaiGraphemeOrderDomain (fset : List Char) (patterns : List (List Char))
    (text : List Char) : SegResult :=
  if text = [] then
    { text := text, readings := [], is_ambiguous := false, unmatched := [] }
  else
    let unique := dedupReadings (allProjReadings fset patterns text) []
    { text := text,
      readings := unique.map buildReading,
      is_ambiguous := decide (1 < unique.length),
      unmatched := [] }

/-! ### Observers for the `match_foundation` loop

`consonantPositions` records the text indices at which the loop of
`match_foundation` consumes consonants (its `idx` trajectory restricted to
consonant consumptions), and `tonedOf` lists, for such a trajectory, the
indices `k` of the consonants that are immediately followed by a tone mark in
the text.  Both are derived observers used only to state and prove properties
of successful matches. -/

/-- The consonant-consumption positions of the `match_foundation` loop started
at `idx` with `rem` consonants still required (meaningful for successful
matches, where every visited character is a consonant). -/
def consonantPositions (text : List Char) : Nat → Nat → List Nat
  | _, 0 => []
  | idx, rem + 1 =>
    if idx < text.length then
      if idx + 1 < text.length ∧ text.getD (idx + 1) default ∈ toneMarks then
        idx :: consonantPositions text (idx + 2) rem
      else
        idx :: consonantPositions text (idx + 1) rem
    else []

/-- Indices (into a consonant-position list) of the consonants that are
immediately followed by a tone-mark character in `text`, in left-to-right
order. -/
def tonedOf (text : List Char) : List Nat → List Nat
  | [] => []
  | p :: rest =>
    if p + 1 < text.length ∧ text.getD (p + 1) default ∈ toneMarks then
      0 :: (tonedOf text rest).map (· + 1)
    else (tonedOf text rest).map (· + 1)

/-! ### Lemmas about `match_foundationAux` -/

/-- A successful `match_foundation` loop consumes a contiguous block of
in-bounds positions starting at `idx`, at least one per required consonant. -/
theorem match_foundationAux_positions (fset text : List Char) :
    ∀ rem idx acc f, match_foundationAux fset text idx rem acc = some f →
      ∃ k, f.positions = acc.positions ++ List.range' idx k ∧ rem ≤ k ∧
        ∀ q ∈ List.range' idx k, q < text.length := by
  intro rem
  induction rem with
  | zero =>
    intro idx acc f h
    simp only [match_foundationAux] at h
    cases h
    exact ⟨0, by simp, by simp, by simp⟩
  | succ rem ih =>
    intro idx acc f h
    simp only [match_foundationAux] at h
    split_ifs at h with h1 h2 h3
    · -- tone attached after the consonant at `idx`
      obtain ⟨k, hk, hle, hb⟩ := ih (idx + 2) _ f h
      refine ⟨k + 2, ?_, by omega, ?_⟩
      · simp only at hk
        rw [hk]
        simp [List.range'_succ, List.append_assoc]
      · intro q hq
        rw [List.range'_succ] at hq
        rcases List.mem_cons.mp hq with hq | hq
        · omega
        · rw [List.range'_succ] at hq
          rcases List.mem_cons.mp hq with hq | hq
          · omega
          · exact hb q hq
    · -- no tone after the consonant at `idx`
      obtain ⟨k, hk, hle, hb⟩ := ih (idx + 1) _ f h
      refine ⟨k + 1, ?_, by omega, ?_⟩
      · simp only at hk
        rw [hk]
        simp [List.range'_succ, List.append_assoc]
      · intro q hq
        rw [List.range'_succ] at hq
        rcases List.mem_cons.mp hq with hq | hq
        · omega
        · exact hb q hq

/-- A successful `match_foundation` loop appends exactly the consonants that
stand at the positions of `consonantPositions`, all members of `fset`. -/
theorem match_foundationAux_consonants (fset text : List Char) :
    ∀ rem idx acc f, match_foundationAux fset text idx rem acc = some f →
      ∃ cs, f.consonants = acc.consonants ++ cs ∧ cs.length = rem ∧
        List.Forall₂ (fun p ch => text.getD p default = ch ∧ ch ∈ fset)
          (consonantPositions text idx rem) cs := by
  intro rem
  induction rem with
  | zero =>
    intro idx acc f h
    simp only [match_foundationAux] at h
    cases h
    exact ⟨[], by simp, rfl, by simp [consonantPositions]⟩
  | succ rem ih =>
    intro idx acc f h
    simp only [match_foundationAux] at h
    split_ifs at h with h1 h2 h3
    · obtain ⟨cs, hcs, hlen, hfa⟩ := ih (idx + 2) _ f h
      refine ⟨text.getD idx default :: cs, ?_, by simp [hlen], ?_⟩
      · simp only at hcs
        rw [hcs]
        simp
      · rw [consonantPositions, if_pos h1, if_pos h3]
        exact List.Forall₂.cons ⟨rfl, h2⟩ hfa
    · obtain ⟨cs, hcs, hlen, hfa⟩ := ih (idx + 1) _ f h
      refine ⟨text.getD idx default :: cs, ?_, by simp [hlen], ?_⟩
      · simp only at hcs
        rw [hcs]
        simp
      · rw [consonantPositions, if_pos h1, if_neg h3]
        exact List.Forall₂.cons ⟨rfl, h2⟩ hfa

/-- Every toned index points inside the consonant-position list. -/
theorem tonedOf_mem_lt (text : List Char) :
    ∀ cp, ∀ j ∈ tonedOf text cp, j < cp.length := by
  intro cp
  induction cp with
  | nil => intro j h; simp [tonedOf] at h
  | cons p rest ih =>
    intro j h
    simp only [tonedOf] at h
    split_ifs at h with hp
    · rcases List.mem_cons.mp h with rfl | h
      · simp
      · obtain ⟨j', hj', rfl⟩ := List.mem_map.mp h
        have := ih j' hj'
        simp only [List.length_cons]
        omega
    · obtain ⟨j', hj', rfl⟩ := List.mem_map.mp h
      have := ih j' hj'
      simp only [List.length_cons]
      omega

/-- Taking `getLast?` ignores a freshly consed head when the tail is nonempty. -/
theorem getLast?_cons_of_ne {α : Type} (a : α) (l : List α) (h : l ≠ []) :
    (a :: l).getLast? = l.getLast? := by
  cases l with
  | nil => exact absurd rfl h
  | cons b t => exact List.getLast?_cons_cons

/-- Tone bookkeeping of a successful `match_foundation` loop: if none of the
consumed consonants is followed by a tone mark the `tone`/`tone_owner` fields
are left as they were; otherwise they record the **last** toned consonant
(the source overwrites the fields on each tone encountered), and every
encountered tone mark's position is consumed. -/
theorem match_foundationAux_tone (fset text : List Char) :
    ∀ rem idx acc f, match_foundationAux fset text idx rem acc = some f →
      (tonedOf text (consonantPositions text idx rem) = [] →
        f.tone = acc.tone ∧ f.tone_owner = acc.tone_owner) ∧
      (∀ jm, (tonedOf text (consonantPositions text idx rem)).getLast? = some jm →
        f.tone_owner = some (acc.consonants.length + jm) ∧
        f.tone = some (text.getD ((consonantPositions text idx rem).getD jm 0 + 1) default)) ∧
      (∀ j ∈ tonedOf text (consonantPositions text idx rem),
        (consonantPositions text idx rem).getD j 0 + 1 ∈ f.positions) ∧
      (∀ p ∈ consonantPositions text idx rem, p ∈ f.positions) := by
  intro rem
  induction rem with
  | zero =>
    intro idx acc f h
    simp only [match_foundationAux] at h
    cases h
    refine ⟨fun _ => ⟨rfl, rfl⟩, fun jm hjm => ?_, ?_, ?_⟩
    · simp [consonantPositions, tonedOf] at hjm
    · simp [consonantPositions, tonedOf]
    · simp [consonantPositions]
  | succ rem ih =>
    intro idx acc f h
    simp only [match_foundationAux] at h
    split_ifs at h with h1 h2 h3
    · -- a tone mark follows the consonant consumed at `idx`
      obtain ⟨IH1, IH2, IH3, IH4⟩ := ih (idx + 2) _ f h
      obtain ⟨k, hk, -, -⟩ := match_foundationAux_positions fset text rem (idx + 2) _ f h
      have hmono : ∀ q, q ∈ acc.positions ++ [idx] ++ [idx + 1] → q ∈ f.positions := by
        intro q hq
        rw [hk]
        exact List.mem_append_left _ hq
      have hcp : consonantPositions text idx (rem + 1) =
          idx :: consonantPositions text (idx + 2) rem := by
        rw [consonantPositions, if_pos h1, if_pos h3]
      have htd : tonedOf text (consonantPositions text idx (rem + 1)) =
          0 :: (tonedOf text (consonantPositions text (idx + 2) rem)).map (· + 1) := by
        rw [hcp, tonedOf, if_pos h3]
      refine ⟨fun h' => ?_, fun jm hjm => ?_, fun j hj => ?_, fun p hp => ?_⟩
      · rw [htd] at h'
        exact absurd h' (List.cons_ne_nil _ _)
      · rw [htd] at hjm
        rcases heq : tonedOf text (consonantPositions text (idx + 2) rem) with _ | ⟨j0, rest⟩
        · rw [heq] at hjm
          simp only [List.map_nil, List.getLast?_singleton, Option.some.injEq] at hjm
          subst hjm
          obtain ⟨ht, ho⟩ := IH1 heq
          constructor
          · rw [ho]
            simp
          · rw [ht]
            rw [hcp]
            simp
        · rw [heq] at hjm
          rw [getLast?_cons_of_ne _ _ (by simp)] at hjm
          rw [List.getLast?_map, ← heq] at hjm
          obtain ⟨jm', hjm', rfl⟩ := Option.map_eq_some'.mp hjm
          obtain ⟨ho, ht⟩ := IH2 jm' hjm'
          constructor
          · rw [ho]
            simp only [List.length_append, List.length_cons, List.length_nil]
            congr 1
            omega
          · rw [ht, hcp]
            simp
      · rw [htd] at hj
        rcases List.mem_cons.mp hj with rfl | hj
        · rw [hcp]
          simp only [List.getD_cons_zero]
          exact hmono _ (by simp)
        · obtain ⟨j', hj', rfl⟩ := List.mem_map.mp hj
          rw [hcp]
          simp only [List.getD_cons_succ]
          exact IH3 j' hj'
      · rw [hcp] at hp
        rcases List.mem_cons.mp hp with rfl | hp
        · exact hmono _ (by simp)
        · exact IH4 p hp
    · -- no tone mark after the consonant consumed at `idx`
      obtain ⟨IH1, IH2, IH3, IH4⟩ := ih (idx + 1) _ f h
      obtain ⟨k, hk, -, -⟩ := match_foundationAux_positions fset text rem (idx + 1) _ f h
      have hmono : ∀ q, q ∈ acc.positions ++ [idx] → q ∈ f.positions := by
        intro q hq
        rw [hk]
        exact List.mem_append_left _ hq
      have hcp : consonantPositions text idx (rem + 1) =
          idx :: consonantPositions text (idx + 1) rem := by
        rw [consonantPositions, if_pos h1, if_neg h3]
      have htd : tonedOf text (consonantPositions text idx (rem + 1)) =
          (tonedOf text (consonantPositions text (idx + 1) rem)).map (· + 1) := by
        rw [hcp, tonedOf, if_neg h3]
      refine ⟨fun h' => ?_, fun jm hjm => ?_, fun j hj => ?_, fun p hp => ?_⟩
      · rw [htd] at h'
        have : tonedOf text (consonantPositions text (idx + 1) rem) = [] :=
          List.map_eq_nil_iff.mp h'
        obtain ⟨ht, ho⟩ := IH1 this
        exact ⟨ht, ho⟩
      · rw [htd, List.getLast?_map] at hjm
        obtain ⟨jm', hjm', rfl⟩ := Option.map_eq_some'.mp hjm
        obtain ⟨ho, ht⟩ := IH2 jm' hjm'
        constructor
        · rw [ho]
          simp only [List.length_append, List.length_cons, List.length_nil]
          congr 1
          omega
        · rw [ht, hcp]
          simp
      · rw [htd] at hj
        obtain ⟨j', hj', rfl⟩ := List.mem_map.mp hj
        rw [hcp]
        simp only [List.getD_cons_succ]
        exact IH3 j' hj'
      · rw [hcp] at hp
        rcases List.mem_cons.mp hp with rfl | hp
        · exact hmono _ (by simp)
        · exact IH4 p hp

/-! ### Lemmas about `try_matchAux` -/

/-- A nonempty `range'` block ends at its last element, one short of the block
end. -/
theorem range'_getLast? (s k : Nat) (h : 1 ≤ k) :
    (List.range' s k).getLast? = some (s + k - 1) := by
  obtain ⟨k', rfl⟩ : ∃ k', k = k' + 1 := ⟨k - 1, by omega⟩
  rw [List.range'_concat, List.getLast?_concat]
  congr 1
  omega

/-- Successful template walks consume a contiguous block of in-bounds
positions starting at the cursor (provided any `x` placeholder requests at
least one consonant, as `find_pattern_matches` always arranges). -/
theorem try_matchAux_positions (fset text : List Char) (cluster_size : Nat) :
    ∀ pat (cursor : Int) st st',
      ('x' ∈ pat → 1 ≤ cluster_size) →
      try_matchAux fset text cluster_size pat cursor st = some st' →
      ∃ k, st'.positions = st.positions ++ List.range' cursor.toNat k ∧
        (∀ q ∈ List.range' cursor.toNat k, q < text.length) ∧
        (pat ≠ [] → 1 ≤ k) := by
  intro pat
  induction pat with
  | nil =>
    intro cursor st st' _ h
    simp only [try_matchAux] at h
    cases h
    exact ⟨0, by simp, by simp, by simp⟩
  | cons p ps ih =>
    intro cursor st st' hx h
    simp only [try_matchAux] at h
    split_ifs at h with hb hxp hfp hlit
    · -- p = 'x'
      rcases hmf : match_foundation fset text cursor cluster_size with _ | f <;> rw [hmf] at h
      · exact absurd h (by simp)
      · dsimp only at h
        have hg : 0 ≤ cursor ∧ cursor < (text.length : Int) := by
          by_contra hg
          rw [match_foundation, if_pos (by omega)] at hmf
          exact absurd hmf (by simp)
        rw [match_foundation, if_neg (by omega)] at hmf
        obtain ⟨k1, hk1, hk1c, hk1b⟩ :=
          match_foundationAux_positions fset text cluster_size cursor.toNat _ f hmf
        have hcl : 1 ≤ cluster_size := hx (by simp [hxp])
        have hk1pos : 1 ≤ k1 := le_trans hcl hk1c
        simp only [emptyFoundation, List.nil_append] at hk1
        rw [hk1, range'_getLast? _ _ hk1pos] at h
        dsimp only at h
        have hnext : ((cursor.toNat + k1 - 1 : Nat) : Int) + 1 = ((cursor.toNat + k1 : Nat) : Int) := by
          omega
        rw [hnext] at h
        obtain ⟨k2, hk2, hk2b, -⟩ := ih _ _ st' (fun hxx => hx (List.mem_cons_of_mem _ hxx)) h
        refine ⟨k1 + k2, ?_, ?_, fun _ => by omega⟩
        · rw [hk2]
          simp only [hk1, Int.toNat_natCast]
          rw [List.append_assoc]
          congr 1
          have := List.range'_append cursor.toNat k1 k2 1
          simp only [one_mul] at this
          rw [this]
          congr 1
          omega
        · intro q hq
          rw [List.mem_range'_1] at hq
          by_cases hql : q < cursor.toNat + k1
          · exact hk1b q (List.mem_range'_1.mpr ⟨hq.1, hql⟩)
          · refine hk2b q ?_
            rw [List.mem_range'_1]
            simp only [Int.toNat_natCast]
            omega
    · -- p = 'f'
      rcases hmf : match_foundation fset text cursor 1 with _ | f <;> rw [hmf] at h
      · exact absurd h (by simp)
      · dsimp only at h
        have hg : 0 ≤ cursor ∧ cursor < (text.length : Int) := by
          by_contra hg
          rw [match_foundation, if_pos (by omega)] at hmf
          exact absurd hmf (by simp)
        rw [match_foundation, if_neg (by omega)] at hmf
        obtain ⟨k1, hk1, hk1c, hk1b⟩ :=
          match_foundationAux_positions fset text 1 cursor.toNat _ f hmf
        have hk1pos : 1 ≤ k1 := hk1c
        simp only [emptyFoundation, List.nil_append] at hk1
        rw [hk1, range'_getLast? _ _ hk1pos] at h
        dsimp only at h
        have hnext : ((cursor.toNat + k1 - 1 : Nat) : Int) + 1 = ((cursor.toNat + k1 : Nat) : Int) := by
          omega
        rw [hnext] at h
        obtain ⟨k2, hk2, hk2b, -⟩ := ih _ _ st' (fun hxx => hx (List.mem_cons_of_mem _ hxx)) h
        refine ⟨k1 + k2, ?_, ?_, fun _ => by omega⟩
        · rw [hk2]
          simp only [hk1, Int.toNat_natCast]
          rw [List.append_assoc]
          congr 1
          have := List.range'_append cursor.toNat k1 k2 1
          simp only [one_mul] at this
          rw [this]
          congr 1
          omega
        · intro q hq
          rw [List.mem_range'_1] at hq
          by_cases hql : q < cursor.toNat + k1
          · exact hk1b q (List.mem_range'_1.mpr ⟨hq.1, hql⟩)
          · refine hk2b q ?_
            rw [List.mem_range'_1]
            simp only [Int.toNat_natCast]
            omega
    · -- literal symbol
      push_neg at hb
      obtain ⟨k2, hk2, hk2b, -⟩ := ih _ _ st' (fun hxx => hx (List.mem_cons_of_mem _ hxx)) h
      dsimp only at hk2
      have hc0 : (cursor + 1).toNat = cursor.toNat + 1 := by omega
      rw [hc0] at hk2 hk2b
      refine ⟨k2 + 1, ?_, ?_, fun _ => by omega⟩
      · rw [hk2]
        simp [List.range'_succ, List.append_assoc]
      · intro q hq
        rw [List.range'_succ] at hq
        rcases List.mem_cons.mp hq with rfl | hq
        · omega
        · exact hk2b q hq

/-- All positions consumed by a successful template walk are in bounds
(no hypothesis on the cluster size). -/
theorem try_matchAux_positions_bounded (fset text : List Char) (cluster_size : Nat) :
    ∀ pat (cursor : Int) st st',
      try_matchAux fset text cluster_size pat cursor st = some st' →
      ∃ d, st'.positions = st.positions ++ d ∧ ∀ q ∈ d, q < text.length := by
  intro pat
  induction pat with
  | nil =>
    intro cursor st st' h
    simp only [try_matchAux] at h
    cases h
    exact ⟨[], by simp, by simp⟩
  | cons p ps ih =>
    intro cursor st st' h
    simp only [try_matchAux] at h
    split_ifs at h with hb hxp hfp hlit
    · rcases hmf : match_foundation fset text cursor cluster_size with _ | f <;> rw [hmf] at h
      · exact absurd h (by simp)
      · dsimp only at h
        have hg : 0 ≤ cursor ∧ cursor < (text.length : Int) := by
          by_contra hg
          rw [match_foundation, if_pos (by omega)] at hmf
          exact absurd hmf (by simp)
        rw [match_foundation, if_neg (by omega)] at hmf
        obtain ⟨k1, hk1, -, hk1b⟩ :=
          match_foundationAux_positions fset text cluster_size cursor.toNat _ f hmf
        simp only [emptyFoundation, List.nil_append] at hk1
        obtain ⟨d2, hd2, hd2b⟩ := ih _ _ st' h
        dsimp only at hd2
        refine ⟨f.positions ++ d2, by rw [hd2, List.append_assoc], ?_⟩
        intro q hq
        rcases List.mem_append.mp hq with hq | hq
        · rw [hk1] at hq
          exact hk1b q hq
        · exact hd2b q hq
    · rcases hmf : match_foundation fset text cursor 1 with _ | f <;> rw [hmf] at h
      · exact absurd h (by simp)
      · dsimp only at h
        have hg : 0 ≤ cursor ∧ cursor < (text.length : Int) := by
          by_contra hg
          rw [match_foundation, if_pos (by omega)] at hmf
          exact absurd hmf (by simp)
        rw [match_foundation, if_neg (by omega)] at hmf
        obtain ⟨k1, hk1, -, hk1b⟩ :=
          match_foundationAux_positions fset text 1 cursor.toNat _ f hmf
        simp only [emptyFoundation, List.nil_append] at hk1
        obtain ⟨d2, hd2, hd2b⟩ := ih _ _ st' h
        dsimp only at hd2
        refine ⟨f.positions ++ d2, by rw [hd2, List.append_assoc], ?_⟩
        intro q hq
        rcases List.mem_append.mp hq with hq | hq
        · rw [hk1] at hq
          exact hk1b q hq
        · exact hd2b q hq
    · push_neg at hb
      obtain ⟨d2, hd2, hd2b⟩ := ih _ _ st' h
      dsimp only at hd2
      refine ⟨cursor.toNat :: d2, by rw [hd2]; simp, ?_⟩
      intro q hq
      rcases List.mem_cons.mp hq with rfl | hq
      · omega
      · exact hd2b q hq

/-- Template walks over patterns without `x` leave the foundation field
untouched. -/
theorem try_matchAux_no_x (fset text : List Char) (cluster_size : Nat) :
    ∀ pat (cursor : Int) st st', 'x' ∉ pat →
      try_matchAux fset text cluster_size pat cursor st = some st' →
      st'.foundation = st.foundation := by
  intro pat
  induction pat with
  | nil =>
    intro cursor st st' _ h
    simp only [try_matchAux] at h
    cases h
    rfl
  | cons p ps ih =>
    intro cursor st st' hnx h
    simp only [try_matchAux] at h
    split_ifs at h with hb hxp hfp hlit
    · exact absurd (hxp ▸ List.mem_cons_self p ps) hnx
    · rcases hmf : match_foundation fset text cursor 1 with _ | f <;> rw [hmf] at h
      · exact absurd h (by simp)
      · dsimp only at h
        have h2 := ih _ _ st' (fun hc => hnx (List.mem_cons_of_mem _ hc)) h
        simpa using h2
    · have h2 := ih _ _ st' (fun hc => hnx (List.mem_cons_of_mem _ hc)) h
      simpa using h2

/-- Every foundation (resp. final) container stored by a template walk either
was already present or is the result of some `match_foundation` call — finals
always with width 1. -/
theorem try_matchAux_srcs (fset text : List Char) (cluster_size : Nat) :
    ∀ pat (cursor : Int) st st',
      try_matchAux fset text cluster_size pat cursor st = some st' →
      (∀ f, st'.foundation = some f → st.foundation = some f ∨
        ∃ s c, match_foundation fset text s c = some f) ∧
      (∀ f, st'.final = some f → st.final = some f ∨
        ∃ s, match_foundation fset text s 1 = some f) := by
  intro pat
  induction pat with
  | nil =>
    intro cursor st st' h
    simp only [try_matchAux] at h
    cases h
    exact ⟨fun f hf => Or.inl hf, fun f hf => Or.inl hf⟩
  | cons p ps ih =>
    intro cursor st st' h
    simp only [try_matchAux] at h
    split_ifs at h with hb hxp hfp hlit
    · rcases hmf : match_foundation fset text cursor cluster_size with _ | f0 <;> rw [hmf] at h
      · exact absurd h (by simp)
      · dsimp only at h
        obtain ⟨ihf, ihl⟩ := ih _ _ st' h
        constructor
        · intro f hf
          rcases ihf f hf with hf' | hf'
          · simp only at hf'
            cases hf'
            exact Or.inr ⟨cursor, cluster_size, hmf⟩
          · exact Or.inr hf'
        · intro f hf
          rcases ihl f hf with hf' | hf'
          · exact Or.inl hf'
          · exact Or.inr hf'
    · rcases hmf : match_foundation fset text cursor 1 with _ | f0 <;> rw [hmf] at h
      · exact absurd h (by simp)
      · dsimp only at h
        obtain ⟨ihf, ihl⟩ := ih _ _ st' h
        constructor
        · intro f hf
          rcases ihf f hf with hf' | hf'
          · exact Or.inl hf'
          · exact Or.inr hf'
        · intro f hf
          rcases ihl f hf with hf' | hf'
          · simp only at hf'
            cases hf'
            exact Or.inr ⟨cursor, hmf⟩
          · exact Or.inr hf'
    · obtain ⟨ihf, ihl⟩ := ih _ _ st' h
      exact ⟨fun f hf => ihf f hf, fun f hf => ihl f hf⟩

/-- When the pattern contains `x`, the stored foundation comes from a
`match_foundation` call with exactly the requested cluster size. -/
theorem try_matchAux_x_cluster (fset text : List Char) (cluster_size : Nat) :
    ∀ pat (cursor : Int) st st', 'x' ∈ pat →
      try_matchAux fset text cluster_size pat cursor st = some st' →
      ∃ f s, st'.foundation = some f ∧
        match_foundation fset text s cluster_size = some f := by
  intro pat
  induction pat with
  | nil =>
    intro cursor st st' hmem _
    exact absurd hmem (by simp)
  | cons p ps ih =>
    intro cursor st st' hmem h
    simp only [try_matchAux] at h
    split_ifs at h with hb hxp hfp hlit
    · rcases hmf : match_foundation fset text cursor cluster_size with _ | f0 <;> rw [hmf] at h
      · exact absurd h (by simp)
      · dsimp only at h
        by_cases hps : 'x' ∈ ps
        · exact ih _ _ st' hps h
        · have := try_matchAux_no_x fset text cluster_size ps _ _ st' hps h
          simp only at this
          exact ⟨f0, cursor, this, hmf⟩
    · have hps : 'x' ∈ ps := by
        rcases List.mem_cons.mp hmem with h' | h'
        · exact absurd h'.symm hxp
        · exact h'
      rcases hmf : match_foundation fset text cursor 1 with _ | f0 <;> rw [hmf] at h
      · exact absurd h (by simp)
      · dsimp only at h
        exact ih _ _ st' hps h
    · have hps : 'x' ∈ ps := by
        rcases List.mem_cons.mp hmem with h' | h'
        · exact absurd h'.symm hxp
        · exact h'
      exact ih _ _ st' hps h

/-! ### Lemmas about `try_match_pattern_with_foundation` -/

/-- The unused `used` argument really is irrelevant. -/
theorem try_match_used_irrel (fset text : List Char) (s : Int) (pat : List Char)
    (used : Finset Nat) (c : Nat) :
    try_match_pattern_with_foundation fset text s pat used c =
      try_match_pattern_with_foundation fset text s pat ∅ c := rfl

/-- Elimination form of a successful `try_match_pattern_with_foundation`. -/
theorem try_match_elim {fset text : List Char} {s : Int} {pat : List Char}
    {used : Finset Nat} {c : Nat} {m : PMatch}
    (h : try_match_pattern_with_foundation fset text s pat used c = some m) :
    ∃ st, try_matchAux fset text c pat s emptyMState = some st ∧
      m.pattern = pat ∧ m.foundation = st.foundation ∧ m.vowel_text = st.vowel_text ∧
      m.final = st.final ∧ m.positions = st.positions := by
  rw [try_match_pattern_with_foundation] at h
  obtain ⟨st, hst, heq⟩ := Option.map_eq_some'.mp h
  exact ⟨st, hst, by rw [← heq], by rw [← heq], by rw [← heq], by rw [← heq], by rw [← heq]⟩

/-- Introduction form of a successful `try_match_pattern_with_foundation`. -/
theorem try_match_intro {fset text : List Char} {s : Int} {pat : List Char}
    (used : Finset Nat) {c : Nat} {st : MState}
    (h : try_matchAux fset text c pat s emptyMState = some st) :
    try_match_pattern_with_foundation fset text s pat used c =
      some ⟨pat, st.foundation, st.vowel_text, st.final, st.positions⟩ := by
  rw [try_match_pattern_with_foundation, h]
  rfl

/-- A successful match consumes the contiguous in-bounds block starting at its
start offset (cluster sizes as arranged by `find_pattern_matches`). -/
theorem try_match_positions {fset text : List Char} {s : Int} {pat : List Char}
    {used : Finset Nat} {c : Nat} {m : PMatch}
    (hx : 'x' ∈ pat → 1 ≤ c)
    (h : try_match_pattern_with_foundation fset text s pat used c = some m) :
    ∃ k, m.positions = List.range' s.toNat k ∧
      (∀ q ∈ m.positions, q < text.length) ∧ (pat ≠ [] → 1 ≤ k) := by
  obtain ⟨st, hst, -, -, -, -, hpos⟩ := try_match_elim h
  obtain ⟨k, hk, hkb, hk1⟩ := try_matchAux_positions fset text c pat s _ st hx hst
  simp only [emptyMState, List.nil_append] at hk
  refine ⟨k, by rw [hpos, hk], ?_, hk1⟩
  intro q hq
  rw [hpos, hk] at hq
  exact hkb q hq

/-- All positions of any successful match are in bounds. -/
theorem try_match_positions_bounded {fset text : List Char} {s : Int} {pat : List Char}
    {used : Finset Nat} {c : Nat} {m : PMatch}
    (h : try_match_pattern_with_foundation fset text s pat used c = some m) :
    ∀ q ∈ m.positions, q < text.length := by
  obtain ⟨st, hst, -, -, -, -, hpos⟩ := try_match_elim h
  obtain ⟨d, hd, hdb⟩ := try_matchAux_positions_bounded fset text c pat s _ st hst
  simp only [emptyMState, List.nil_append] at hd
  intro q hq
  rw [hpos, hd] at hq
  exact hdb q hq

/-! ### Lemmas about `find_pattern_matches` -/

/-- Soundness of the candidate enumeration: every produced match avoids `used`
and stems from a `try_match_pattern_with_foundation` call with a start offset
in `range(-5, len(text))` and a cluster size as dictated by the presence of
`x` in the pattern. -/
theorem mem_find_pattern_matches {fset text pattern : List Char} {used : Finset Nat}
    {m : PMatch} (h : m ∈ find_pattern_matches fset text pattern used) :
    (∀ q ∈ m.positions, q ∉ used) ∧
    ∃ (s : Int) (c : Nat), -5 ≤ s ∧ s < (text.length : Int) ∧
      (('x' ∈ pattern ∧ 1 ≤ c ∧ c ≤ min 3 text.length) ∨ ('x' ∉ pattern ∧ c = 0)) ∧
      try_match_pattern_with_foundation fset text s pattern used c = some m := by
  rw [find_pattern_matches, List.mem_flatMap] at h
  obtain ⟨i, hi, hm⟩ := h
  rw [List.mem_range] at hi
  dsimp only at hm
  by_cases hx : 'x' ∈ pattern
  · rw [if_pos hx, List.mem_flatMap] at hm
    obtain ⟨j, hj, hm⟩ := hm
    rw [List.mem_range] at hj
    rcases htm : try_match_pattern_with_foundation fset text ((i : Int) - 5) pattern used (j + 1)
      with _ | m' <;> rw [htm] at hm
    · exact absurd hm (by simp)
    · dsimp only at hm
      split_ifs at hm with hdis
      · rcases List.mem_singleton.mp hm with rfl
        exact ⟨hdis, (i : Int) - 5, j + 1, by omega, by omega,
          Or.inl ⟨hx, by omega, by omega⟩, htm⟩
      · exact absurd hm (by simp)
  · rw [if_neg hx] at hm
    rcases htm : try_match_pattern_with_foundation fset text ((i : Int) - 5) pattern used 0
      with _ | m' <;> rw [htm] at hm
    · exact absurd hm (by simp)
    · dsimp only at hm
      split_ifs at hm with hdis
      · rcases List.mem_singleton.mp hm with rfl
        exact ⟨hdis, (i : Int) - 5, 0, by omega, by omega, Or.inr ⟨hx, rfl⟩, htm⟩
      · exact absurd hm (by simp)

/-- Completeness of the candidate enumeration: every successful match at an
attempted start offset and admissible cluster size whose positions avoid
`used` is produced. -/
theorem find_pattern_matches_complete {fset text pattern : List Char} {used : Finset Nat}
    {m : PMatch} {s : Int} {c : Nat}
    (hs : -5 ≤ s) (hs2 : s < (text.length : Int))
    (hc : ('x' ∈ pattern ∧ 1 ≤ c ∧ c ≤ min 3 text.length) ∨ ('x' ∉ pattern ∧ c = 0))
    (htm : try_match_pattern_with_foundation fset text s pattern used c = some m)
    (hdis : ∀ q ∈ m.positions, q ∉ used) :
    m ∈ find_pattern_matches fset text pattern used := by
  rw [find_pattern_matches, List.mem_flatMap]
  refine ⟨(s + 5).toNat, by rw [List.mem_range]; omega, ?_⟩
  have hsval : (((s + 5).toNat : Nat) : Int) - 5 = s := by omega
  dsimp only
  rw [hsval]
  rcases hc with ⟨hx, hc1, hc3⟩ | ⟨hx, rfl⟩
  · rw [if_pos hx, List.mem_flatMap]
    refine ⟨c - 1, by rw [List.mem_range]; omega, ?_⟩
    rw [(by omega : c - 1 + 1 = c), htm]
    dsimp only
    rw [if_pos hdis]
    exact List.mem_singleton_self m
  · rw [if_neg hx, htm]
    dsimp only
    rw [if_pos hdis]
    exact List.mem_singleton_self m

/-! ### Lemmas about the segmentation search -/

/-- Scanning for the next unused position over an empty used set stays put. -/
theorem skipUsed_empty (n p : Nat) : skipUsed n ∅ p = p := by
  rw [skipUsed]
  cases n - p with
  | zero => rfl
  | succ k => rw [skipUsedAux]; simp

/-- Every reading emitted by the search has exactly one syllable: the
`len(current_reading) == 1` acceptance test of `explore_segmentations`. -/
theorem explore_length_one (fset : List Char) (patterns : List (List Char)) (text : List Char) :
    ∀ fuel pos used cur, ∀ r ∈ explore_segmentations fset patterns text fuel pos used cur,
      r.length = 1 := by
  intro fuel
  induction fuel with
  | zero =>
    intro pos used cur r h
    simp [explore_segmentations] at h
  | succ fuel ih =>
    intro pos used cur r h
    simp only [explore_segmentations] at h
    split_ifs at h with h1 h2 h3
    · rcases List.mem_singleton.mp h with rfl
      exact h2
    · exact absurd h (by simp)
    · exact absurd h (by simp)
    · rw [List.mem_flatMap] at h
      obtain ⟨pat, hpat, h⟩ := h
      rw [List.mem_flatMap] at h
      obtain ⟨m, hmF, h⟩ := h
      split_ifs at h with hp
      · exact ih _ _ _ r h
      · exact absurd h (by simp)

/-- Provenance of a match collected during the search: it was produced by
`try_match_pattern_with_foundation` on a catalog pattern with the cluster-size
discipline of `find_pattern_matches`. -/
def matchProvenance (fset : List Char) (patterns : List (List Char)) (text : List Char)
    (m : PMatch) : Prop :=
  ∃ pat ∈ patterns, ∃ (s : Int) (c : Nat),
    (('x' ∈ pat ∧ 1 ≤ c ∧ c ≤ min 3 text.length) ∨ ('x' ∉ pat ∧ c = 0)) ∧
    try_match_pattern_with_foundation fset text s pat ∅ c = some m

/-- Main soundness invariant of the backtracking search: starting from a state
whose used set is exactly the (duplicate-free, in-bounds) set of positions of
the already-accepted matches, every emitted reading consists of
provenance-checked matches whose flattened position list is duplicate-free and
covers `{0, …, len(text)-1}` exactly. -/
theorem explore_inv (fset : List Char) (patterns : List (List Char)) (text : List Char) :
    ∀ fuel pos used cur,
      used = (cur.flatMap PMatch.positions).toFinset →
      (cur.flatMap PMatch.positions).Nodup →
      (∀ q ∈ cur.flatMap PMatch.positions, q < text.length) →
      (∀ m ∈ cur, matchProvenance fset patterns text m) →
      ∀ r ∈ explore_segmentations fset patterns text fuel pos used cur,
        (r.flatMap PMatch.positions).Nodup ∧
        (r.flatMap PMatch.positions).toFinset = Finset.range text.length ∧
        ∀ m ∈ r, matchProvenance fset patterns text m := by
  intro fuel
  induction fuel with
  | zero =>
    intro pos used cur _ _ _ _ r h
    simp [explore_segmentations] at h
  | succ fuel ih =>
    intro pos used cur hused hnd hbd hprov r h
    simp only [explore_segmentations] at h
    split_ifs at h with h1 h2 h3
    · rcases List.mem_singleton.mp h with rfl
      refine ⟨hnd, ?_, hprov⟩
      have hsub : (r.flatMap PMatch.positions).toFinset ⊆ Finset.range text.length := by
        intro q hq
        rw [List.mem_toFinset] at hq
        rw [Finset.mem_range]
        exact hbd q hq
      have hcard : (Finset.range text.length).card ≤ (r.flatMap PMatch.positions).toFinset.card := by
        rw [Finset.card_range, ← hused, h1]
      exact Finset.eq_of_subset_of_card_le hsub hcard
    · exact absurd h (by simp)
    · exact absurd h (by simp)
    · rw [List.mem_flatMap] at h
      obtain ⟨pat, hpat, h⟩ := h
      rw [List.mem_flatMap] at h
      obtain ⟨m, hmF, h⟩ := h
      split_ifs at h with hp
      · obtain ⟨hdis, s, c, hs, hs2, hcons, htm⟩ := mem_find_pattern_matches hmF
        have hxc : 'x' ∈ pat → 1 ≤ c := by
          rcases hcons with ⟨-, hc1, -⟩ | ⟨hnx, -⟩
          · exact fun _ => hc1
          · exact fun hx => absurd hx hnx
        obtain ⟨k, hk, -, -⟩ := try_match_positions hxc htm
        have hndm : m.positions.Nodup := by
          rw [hk]
          exact List.nodup_range' _ _
        have hbdm : ∀ q ∈ m.positions, q < text.length := try_match_positions_bounded htm
        have hflat : (cur ++ [m]).flatMap PMatch.positions =
            cur.flatMap PMatch.positions ++ m.positions := by
          simp
        refine ih _ _ _ ?_ ?_ ?_ ?_ r h
        · rw [hflat, List.toFinset_append, hused]
        · rw [hflat]
          refine List.Nodup.append hnd hndm ?_
          intro q hq hq2
          have : q ∉ used := hdis q hq2
          rw [hused, List.mem_toFinset] at this
          exact this hq
        · rw [hflat]
          intro q hq
          rcases List.mem_append.mp hq with hq | hq
          · exact hbd q hq
          · exact hbdm q hq
        · intro m' hm'
          rcases List.mem_append.mp hm' with hm' | hm'
          · exact hprov m' hm'
          · rcases List.mem_singleton.mp hm' with rfl
            rw [try_match_used_irrel] at htm
            exact ⟨pat, hpat, s, c, hcons, htm⟩
      · exact absurd h (by simp)

/-! ### Lemmas about deduplication -/

/-- Membership in the deduplicated list: present in the input and not yet
seen. -/
theorem mem_dedupReadings : ∀ (l seen : List (List Syllable)) (a : List Syllable),
    a ∈ dedupReadings l seen ↔ a ∈ l ∧ a ∉ seen := by
  intro l
  induction l with
  | nil => intro seen a; simp [dedupReadings]
  | cons r rest ih =>
    intro seen a
    rw [dedupReadings]
    split_ifs with hr
    · rw [ih]
      constructor
      · rintro ⟨ha, hs⟩
        exact ⟨List.mem_cons_of_mem _ ha, hs⟩
      · rintro ⟨ha, hs⟩
        rcases List.mem_cons.mp ha with rfl | ha
        · exact absurd hr hs
        · exact ⟨ha, hs⟩
    · constructor
      · intro h
        rcases List.mem_cons.mp h with rfl | h
        · exact ⟨List.mem_cons_self _ _, hr⟩
        · rw [ih] at h
          exact ⟨List.mem_cons_of_mem _ h.1, fun hs => h.2 (List.mem_cons_of_mem _ hs)⟩
      · rintro ⟨ha, hs⟩
        by_cases har : a = r
        · subst har
          exact List.mem_cons_self _ _
        · rcases List.mem_cons.mp ha with rfl | ha
          · exact absurd rfl har
          · refine List.mem_cons_of_mem _ ?_
            rw [ih]
            refine ⟨ha, fun hmem => ?_⟩
            rcases List.mem_cons.mp hmem with rfl | hmem
            · exact har rfl
            · exact hs hmem

/-- The deduplicated list is duplicate-free. -/
theorem dedupReadings_nodup : ∀ (l seen : List (List Syllable)),
    (dedupReadings l seen).Nodup := by
  intro l
  induction l with
  | nil => intro seen; simp [dedupReadings]
  | cons r rest ih =>
    intro seen
    rw [dedupReadings]
    split_ifs with hr
    · exact ih seen
    · rw [List.nodup_cons]
      refine ⟨fun hmem => ?_, ih (r :: seen)⟩
      rw [mem_dedupReadings] at hmem
      exact hmem.2 (List.mem_cons_self _ _)

/-! ### Claim theorems -/

/-- C10: for every input string the `unmatched` field of the returned result
is the empty list, even when the result contains zero readings. -/
theorem C10_unmatched_always_empty (fset : List Char) (patterns : List (List Char))
    (text : List Char) :
    (findThaiGraphemeOrderDomain fset patterns text).unmatched = [] := by
  rw [findThaiGraphemeOrderDomain]
  split_ifs <;> rfl

/-- C3: exact-one-syllable acceptance policy — every reading in the returned
result has a syllable list of length exactly 1, and every raw reading the
search emits (a terminal state) has a partial list of length exactly 1. -/
theorem C3_exactly_one_syllable (fset : List Char) (patterns : List (List Char))
    (text : List Char) :
    (∀ rd ∈ (findThaiGraphemeOrderDomain fset patterns text).readings,
        rd.syllables.length = 1) ∧
    (∀ ms ∈ rawReadings fset patterns text, ms.length = 1) := by
  have hraw : ∀ ms ∈ rawReadings fset patterns text, ms.length = 1 := by
    intro ms hms
    rw [rawReadings] at hms
    exact explore_length_one fset patterns text _ _ _ _ ms hms
  refine ⟨?_, hraw⟩
  intro rd hrd
  rw [findThaiGraphemeOrderDomain] at hrd
  split_ifs at hrd with hemp
  · exact absurd hrd (by simp)
  · dsimp only at hrd
    rw [List.mem_map] at hrd
    obtain ⟨u, hu, rfl⟩ := hrd
    rw [mem_dedupReadings] at hu
    obtain ⟨hu1, -⟩ := hu
    rw [allProjReadings, List.mem_map] at hu1
    obtain ⟨ms, hms, rfl⟩ := hu1
    have := hraw ms hms
    simp [buildReading, this]

/-- Witness for C3 at the concrete input `"ยา"` with catalog `{"xา"}`. -/
theorem C3_exactly_one_syllable_witness :
    (Reading.mk [Syllable.mk (some ⟨['ย'], none, none, [0]⟩) ['า'] none ['x', 'า']]
      [['ย'], ['า']] ['ย', 'า']).syllables.length = 1 :=
  (C3_exactly_one_syllable ['ย'] [['x', 'า']] ['ย', 'า']).1 _ (by decide)

/-- C8: absence of any terminal state is a normal outcome — the result then
has zero readings and `is_ambiguous = false`; in particular the empty string
yields zero readings and `is_ambiguous = false`. -/
theorem C8_zero_readings_normal (fset : List Char) (patterns : List (List Char))
    (text : List Char) :
    (rawReadings fset patterns text = [] →
      (findThaiGraphemeOrderDomain fset patterns text).readings = [] ∧
      (findThaiGraphemeOrderDomain fset patterns text).is_ambiguous = false) ∧
    ((findThaiGraphemeOrderDomain fset patterns []).readings = [] ∧
      (findThaiGraphemeOrderDomain fset patterns []).is_ambiguous = false) := by
  constructor
  · intro hraw
    rw [findThaiGraphemeOrderDomain]
    split_ifs with hemp
    · exact ⟨rfl, rfl⟩
    · have hall : allProjReadings fset patterns text = [] := by
        rw [allProjReadings, hraw]
        rfl
      rw [hall]
      exact ⟨rfl, rfl⟩
  · rw [findThaiGraphemeOrderDomain]
    exact ⟨rfl, rfl⟩

/-- Witness for C8: a one-character text with an empty catalog reaches no
terminal state and yields the zero-reading, unambiguous result. -/
theorem C8_zero_readings_normal_witness :
    (findThaiGraphemeOrderDomain [] [] ['ก']).readings = [] ∧
    (findThaiGraphemeOrderDomain [] [] ['ก']).is_ambiguous = false :=
  (C8_zero_readings_normal [] [] ['ก']).1 (by decide)

/-- C2: coverage invariant — every returned reading is the projection of a raw
reading whose matches consume, between them, every position of the text
exactly once (the flattened position list is duplicate-free and covers
`{0, …, len(text)-1}`). -/
theorem C2_coverage (fset : List Char) (patterns : List (List Char)) (text : List Char) :
    ∀ rd ∈ (findThaiGraphemeOrderDomain fset patterns text).readings,
      ∃ ms ∈ rawReadings fset patterns text,
        rd.syllables = ms.map toSyllable ∧
        (ms.flatMap PMatch.positions).Nodup ∧
        (ms.flatMap PMatch.positions).toFinset = Finset.range text.length := by
  intro rd hrd
  rw [findThaiGraphemeOrderDomain] at hrd
  split_ifs at hrd with hemp
  · exact absurd hrd (by simp)
  · dsimp only at hrd
    rw [List.mem_map] at hrd
    obtain ⟨u, hu, rfl⟩ := hrd
    rw [mem_dedupReadings] at hu
    obtain ⟨hu1, -⟩ := hu
    rw [allProjReadings, List.mem_map] at hu1
    obtain ⟨ms, hms, rfl⟩ := hu1
    rw [rawReadings] at hms
    obtain ⟨hnd, hcov, -⟩ := explore_inv fset patterns text _ _ _ _ (by simp) (by simp)
      (by simp) (by simp) ms hms
    exact ⟨ms, by rw [rawReadings]; exact hms, by simp [buildReading], hnd, hcov⟩

/-- Witness for C2 at the concrete input `"ยา"` with catalog `{"xา"}`. -/
theorem C2_coverage_witness :
    ∃ ms ∈ rawReadings ['ย'] [['x', 'า']] ['ย', 'า'],
      (Reading.mk [Syllable.mk (some ⟨['ย'], none, none, [0]⟩) ['า'] none ['x', 'า']]
        [['ย'], ['า']] ['ย', 'า']).syllables = ms.map toSyllable ∧
      (ms.flatMap PMatch.positions).Nodup ∧
      (ms.flatMap PMatch.positions).toFinset = Finset.range (['ย', 'า'] : List Char).length :=
  C2_coverage ['ย'] [['x', 'า']] ['ย', 'า'] _ (by decide)

/-- C7: template-matcher bounds safety — with symbols left to consume, a
cursor outside `[0, len(text))` fails the match (in particular every negative
start offset fails on a nonempty template), and every position recorded by a
successful match lies inside the text. -/
theorem C7_bounds_safety (fset text : List Char) (s : Int) (pat : List Char)
    (used : Finset Nat) (c : Nat) :
    (pat ≠ [] ∧ (s < 0 ∨ (text.length : Int) ≤ s) →
      try_match_pattern_with_foundation fset text s pat used c = none) ∧
    (∀ m, try_match_pattern_with_foundation fset text s pat used c = some m →
      ∀ q ∈ m.positions, q < text.length) := by
  constructor
  · rintro ⟨hne, hout⟩
    rcases pat with _ | ⟨p, ps⟩
    · exact absurd rfl hne
    · rw [try_match_pattern_with_foundation]
      rw [try_matchAux, if_pos hout]
      rfl
  · intro m hm
    exact try_match_positions_bounded hm

/-- Witness for C7: a negative start offset on a nonempty pattern fails. -/
theorem C7_bounds_safety_witness :
    try_match_pattern_with_foundation ['ย'] ['ย', 'า'] (-1) ['x', 'า'] ∅ 1 = none :=
  (C7_bounds_safety ['ย'] ['ย', 'า'] (-1) ['x', 'า'] ∅ 1).1 ⟨by decide, by decide⟩

/-- Pointwise-equal functions flat-map equally. -/
theorem flatMap_congr {α β : Type} {l : List α} {f g : α → List β}
    (h : ∀ a ∈ l, f a = g a) : l.flatMap f = l.flatMap g := by
  induction l with
  | nil => rfl
  | cons a t ih =>
    simp only [List.flatMap_cons]
    rw [h a (List.mem_cons_self _ _), ih fun b hb => h b (List.mem_cons_of_mem _ hb)]

/-- Fuel stabilisation: once the fuel exceeds the number of positions still
uncovered, the search result no longer depends on it — each accepted
transition adds at least one new position to the used set, which is bounded
by `len(text)`, so every branch of the recursion bottoms out. -/
theorem explore_fuel_stable (fset : List Char) (patterns : List (List Char)) (text : List Char) :
    ∀ fuel1 fuel2 pos (used : Finset Nat) cur,
      (∀ q ∈ used, q < text.length) →
      text.length - used.card < fuel1 →
      text.length - used.card < fuel2 →
      explore_segmentations fset patterns text fuel1 pos used cur =
        explore_segmentations fset patterns text fuel2 pos used cur := by
  intro fuel1
  induction fuel1 with
  | zero =>
    intro fuel2 pos used cur _ h1 _
    omega
  | succ fuel1 ih =>
    intro fuel2 pos used cur hb h1 h2
    rcases fuel2 with _ | fuel2
    · omega
    · simp only [explore_segmentations]
      split_ifs with hcard hone hlen
      · rfl
      · rfl
      · rfl
      · apply flatMap_congr
        intro pat hpat
        apply flatMap_congr
        intro m hm
        obtain ⟨hdis, s, c, -, -, hcons, htm⟩ := mem_find_pattern_matches hm
        split_ifs with hp
        · have hbm : ∀ q ∈ m.positions, q < text.length := try_match_positions_bounded htm
          have hb' : ∀ q ∈ used ∪ m.positions.toFinset, q < text.length := by
            intro q hq
            rcases Finset.mem_union.mp hq with hq | hq
            · exact hb q hq
            · exact hbm q (List.mem_toFinset.mp hq)
          have hble : used.card ≤ text.length := by
            have hsub : used ⊆ Finset.range text.length := fun q hq =>
              Finset.mem_range.mpr (hb q hq)
            simpa using Finset.card_le_card hsub
          have hlt : used.card < (used ∪ m.positions.toFinset).card := by
            refine Finset.card_lt_card ?_
            rw [Finset.ssubset_iff_of_subset Finset.subset_union_left]
            exact ⟨skipUsed text.length used pos,
              Finset.mem_union_right _ (List.mem_toFinset.mpr hp),
              hdis _ hp⟩
          apply ih
          · exact hb'
          · omega
          · omega
        · rfl

/-- C9: termination — running the search with any fuel at least
`len(text) + 1` (one step per newly covered position, plus the terminal
check) produces the same, fully explored result. -/
theorem C9_termination (fset : List Char) (patterns : List (List Char)) (text : List Char)
    (fuel : Nat) (h : text.length + 1 ≤ fuel) :
    explore_segmentations fset patterns text fuel 0 ∅ [] =
      rawReadings fset patterns text := by
  rw [rawReadings]
  refine explore_fuel_stable fset patterns text fuel (text.length + 1) 0 ∅ [] (by simp) ?_ ?_
  · rw [Finset.card_empty]
    omega
  · rw [Finset.card_empty]
    omega

/-- Witness for C9 at the concrete input `"ยา"` with surplus fuel. -/
theorem C9_termination_witness :
    explore_segmentations ['ย'] [['x', 'า']] ['ย', 'า'] 5 0 ∅ [] =
      rawReadings ['ย'] [['x', 'า']] ['ย', 'า'] :=
  C9_termination ['ย'] [['x', 'า']] ['ย', 'า'] 5 (by decide)

/-! ### Foundation-invariant lemmas (C5, C6) -/

/-- Pointwise access through a `Forall₂` relation. -/
theorem forall₂_getD {α β : Type} {R : α → β → Prop} :
    ∀ {l₁ : List α} {l₂ : List β}, List.Forall₂ R l₁ l₂ →
      ∀ i (d₁ : α) (d₂ : β), i < l₁.length → R (l₁.getD i d₁) (l₂.getD i d₂) := by
  intro l₁ l₂ h
  induction h with
  | nil => intro i d₁ d₂ hi; simp at hi
  | cons hr _ ih =>
    intro i d₁ d₂ hi
    cases i with
    | zero => simpa using hr
    | succ i =>
      simp only [List.getD_cons_succ]
      exact ih i d₁ d₂ (by simpa using hi)

/-- Right-hand members of a `Forall₂` relation have related partners. -/
theorem forall₂_mem_right {α β : Type} {R : α → β → Prop} :
    ∀ {l₁ : List α} {l₂ : List β}, List.Forall₂ R l₁ l₂ →
      ∀ b ∈ l₂, ∃ a, R a b := by
  intro l₁ l₂ h
  induction h with
  | nil => intro b hb; simp at hb
  | cons hr _ ih =>
    intro b hb
    rcases List.mem_cons.mp hb with rfl | hb
    · exact ⟨_, hr⟩
    · exact ih b hb

/-- A toned index really does point at a consonant position immediately
followed by an in-bounds tone-mark character. -/
theorem tonedOf_cond (text : List Char) :
    ∀ cp, ∀ j ∈ tonedOf text cp,
      cp.getD j 0 + 1 < text.length ∧ text.getD (cp.getD j 0 + 1) default ∈ toneMarks := by
  intro cp
  induction cp with
  | nil => intro j hj; simp [tonedOf] at hj
  | cons p rest ih =>
    intro j hj
    simp only [tonedOf] at hj
    split_ifs at hj with hp
    · rcases List.mem_cons.mp hj with rfl | hj
      · simpa using hp
      · obtain ⟨j', hj', rfl⟩ := List.mem_map.mp hj
        simpa using ih j' hj'
    · obtain ⟨j', hj', rfl⟩ := List.mem_map.mp hj
      simpa using ih j' hj'

/-- Consolidated invariant of a successful `match_foundation` call: all
consonants come from `fset`, and a recorded tone is a tone-mark character
standing in the text immediately after its recorded owner consonant, with
both positions consumed. -/
theorem match_foundation_inv {fset text : List Char} {s : Int} {c : Nat} {f : Foundation}
    (h : match_foundation fset text s c = some f) :
    (∀ ch ∈ f.consonants, ch ∈ fset) ∧
    (∀ t, f.tone = some t → t ∈ toneMarks ∧
      ∃ i p, f.tone_owner = some i ∧ i < f.consonants.length ∧
        p < text.length ∧ p + 1 < text.length ∧
        text.getD p default = f.consonants.getD i default ∧
        text.getD (p + 1) default = t ∧
        p ∈ f.positions ∧ p + 1 ∈ f.positions) := by
  rw [match_foundation] at h
  split_ifs at h with hg
  obtain ⟨cs, hcs, hlen, hfa⟩ := match_foundationAux_consonants fset text c s.toNat _ f h
  simp only [emptyFoundation, List.nil_append] at hcs
  obtain ⟨HT1, HT2, HT3, HT4⟩ := match_foundationAux_tone fset text c s.toNat _ f h
  constructor
  · intro ch hch
    rw [hcs] at hch
    obtain ⟨p, -, hin⟩ := forall₂_mem_right hfa ch hch
    exact hin
  · intro t ht
    set cp := consonantPositions text s.toNat c with hcp
    have htoned : tonedOf text cp ≠ [] := by
      intro hnil
      obtain ⟨ht0, -⟩ := HT1 hnil
      rw [ht] at ht0
      simp [emptyFoundation] at ht0
    rcases hlast : (tonedOf text cp).getLast? with _ | jm
    · rcases htoned (by simpa using hlast)
    · obtain ⟨ho, ht2⟩ := HT2 jm hlast
      have hjmem : jm ∈ tonedOf text cp := List.mem_of_mem_getLast? hlast
      have hjlt : jm < cp.length := tonedOf_mem_lt text cp jm hjmem
      obtain ⟨hcond1, hcond2⟩ := tonedOf_cond text cp jm hjmem
      have htval : t = text.getD (cp.getD jm 0 + 1) default := by
        rw [ht] at ht2
        injection ht2 with hv
      have hcplen : cp.length = cs.length := hfa.length_eq
      refine ⟨htval ▸ hcond2, jm, cp.getD jm 0, ?_, ?_, by omega, hcond1, ?_, htval.symm, ?_, ?_⟩
      · rw [ho]
        simp [emptyFoundation]
      · rw [hcs, ← hcplen]
        exact hjlt
      · have := forall₂_getD hfa jm 0 default hjlt
        rw [hcs]
        exact this.1
      · exact HT4 _ (by exact List.getD_eq_getElem cp 0 hjlt ▸ List.getElem_mem hjlt)
      · exact HT3 jm hjmem

/-- C5: foundation invariant — for every foundation or final container in any
returned reading, all consonants are members of the foundation set, and a
recorded tone is a tone-mark character whose text position immediately
follows its recorded owner consonant and is included in the container's
consumed positions. -/
theorem C5_foundation_invariant (fset : List Char) (patterns : List (List Char))
    (text : List Char) :
    ∀ rd ∈ (findThaiGraphemeOrderDomain fset patterns text).readings,
    ∀ syl ∈ rd.syllables, ∀ f : Foundation,
      syl.foundation = some f ∨ syl.final = some f →
      (∀ ch ∈ f.consonants, ch ∈ fset) ∧
      (∀ t, f.tone = some t → t ∈ toneMarks ∧
        ∃ i p, f.tone_owner = some i ∧ i < f.consonants.length ∧
          p < text.length ∧ p + 1 < text.length ∧
          text.getD p default = f.consonants.getD i default ∧
          text.getD (p + 1) default = t ∧
          p ∈ f.positions ∧ p + 1 ∈ f.positions) := by
  intro rd hrd syl hsyl f hf
  rw [findThaiGraphemeOrderDomain] at hrd
  split_ifs at hrd with hemp
  · exact absurd hrd (by simp)
  · dsimp only at hrd
    rw [List.mem_map] at hrd
    obtain ⟨u, hu, rfl⟩ := hrd
    rw [mem_dedupReadings] at hu
    obtain ⟨hu1, -⟩ := hu
    rw [allProjReadings, List.mem_map] at hu1
    obtain ⟨ms, hms, rfl⟩ := hu1
    rw [rawReadings] at hms
    obtain ⟨-, -, hprov⟩ := explore_inv fset patterns text _ _ _ _ (by simp) (by simp)
      (by simp) (by simp) ms hms
    simp only [buildReading] at hsyl
    rw [List.mem_map] at hsyl
    obtain ⟨m, hm, rfl⟩ := hsyl
    obtain ⟨pat, hpat, s, c, -, htm⟩ := hprov m hm
    obtain ⟨st, hst, -, hfound, -, hfin, -⟩ := try_match_elim htm
    obtain ⟨hsrcF, hsrcL⟩ := try_matchAux_srcs fset text c pat s _ st hst
    rcases hf with hf | hf
    · have : st.foundation = some f := by
        rw [← hfound]
        exact hf
      rcases hsrcF f this with h' | ⟨s', c', hmf⟩
      · simp [emptyMState] at h'
      · exact match_foundation_inv hmf
    · have : st.final = some f := by
        rw [← hfin]
        exact hf
      rcases hsrcL f this with h' | ⟨s', hmf⟩
      · simp [emptyMState] at h'
      · exact match_foundation_inv hmf

/-- Witness for C5 at the concrete input `"อย่า"` (tone mark on `ย`). -/
theorem C5_foundation_invariant_witness :
    (∀ ch ∈ (Foundation.mk ['อ', 'ย'] (some '่') (some 1) [0, 1, 2]).consonants,
        ch ∈ (['อ', 'ย'] : List Char)) ∧
    (∀ t, (Foundation.mk ['อ', 'ย'] (some '่') (some 1) [0, 1, 2]).tone = some t →
      t ∈ toneMarks ∧
      ∃ i p, (Foundation.mk ['อ', 'ย'] (some '่') (some 1) [0, 1, 2]).tone_owner = some i ∧
        i < (Foundation.mk ['อ', 'ย'] (some '่') (some 1) [0, 1, 2]).consonants.length ∧
        p < (['อ', 'ย', '่', 'า'] : List Char).length ∧
        p + 1 < (['อ', 'ย', '่', 'า'] : List Char).length ∧
        (['อ', 'ย', '่', 'า'] : List Char).getD p default =
          (Foundation.mk ['อ', 'ย'] (some '่') (some 1) [0, 1, 2]).consonants.getD i default ∧
        (['อ', 'ย', '่', 'า'] : List Char).getD (p + 1) default = t ∧
        p ∈ (Foundation.mk ['อ', 'ย'] (some '่') (some 1) [0, 1, 2]).positions ∧
        p + 1 ∈ (Foundation.mk ['อ', 'ย'] (some '่') (some 1) [0, 1, 2]).positions) :=
  C5_foundation_invariant ['อ', 'ย'] [['x', 'า']] ['อ', 'ย', '่', 'า']
    (Reading.mk [Syllable.mk (some ⟨['อ', 'ย'], some '่', some 1, [0, 1, 2]⟩) ['า'] none
        ['x', 'า']] [['อ', 'ย', '่'], ['า']] ['อ', 'ย', '่', 'า'])
    (by decide)
    (Syllable.mk (some ⟨['อ', 'ย'], some '่', some 1, [0, 1, 2]⟩) ['า'] none ['x', 'า'])
    (by decide)
    (Foundation.mk ['อ', 'ย'] (some '่') (some 1) [0, 1, 2])
    (Or.inl rfl)

/-- C6: when several consonants of one matched group each carry a following
tone mark, the container records exactly the **last** tone encountered, owned
by the consonant consumed immediately before it, and every encountered tone
mark's position is still consumed. -/
theorem C6_last_tone_wins (fset text : List Char) (start c : Nat) (f : Foundation)
    (h : match_foundation fset text (start : Int) c = some f)
    (j1 j2 : Nat)
    (hj1 : j1 ∈ tonedOf text (consonantPositions text start c))
    (hj2 : j2 ∈ tonedOf text (consonantPositions text start c))
    (hne : j1 ≠ j2) :
    ∃ jm, (tonedOf text (consonantPositions text start c)).getLast? = some jm ∧
      f.tone_owner = some jm ∧
      f.tone = some (text.getD ((consonantPositions text start c).getD jm 0 + 1) default) ∧
      ∀ j ∈ tonedOf text (consonantPositions text start c),
        (consonantPositions text start c).getD j 0 + 1 ∈ f.positions := by
  rw [match_foundation] at h
  split_ifs at h with hg
  have hsn : ((start : Int)).toNat = start := by omega
  rw [hsn] at h
  obtain ⟨-, HT2, HT3, -⟩ := match_foundationAux_tone fset text c start _ f h
  rcases hlast : (tonedOf text (consonantPositions text start c)).getLast? with _ | jm
  · rw [List.getLast?_eq_none_iff] at hlast
    rw [hlast] at hj1
    exact absurd hj1 (by simp)
  · obtain ⟨ho, ht⟩ := HT2 jm hlast
    exact ⟨jm, rfl, by simpa [emptyFoundation] using ho, ht, HT3⟩

/-- Witness for C6: two toned `ก` consonants in one 2-wide group; the second
tone wins. -/
theorem C6_last_tone_wins_witness :
    ∃ jm, (tonedOf ['ก', '่', 'ก', '้']
        (consonantPositions ['ก', '่', 'ก', '้'] 0 2)).getLast? = some jm ∧
      (Foundation.mk ['ก', 'ก'] (some '้') (some 1) [0, 1, 2, 3]).tone_owner = some jm ∧
      (Foundation.mk ['ก', 'ก'] (some '้') (some 1) [0, 1, 2, 3]).tone =
        some ((['ก', '่', 'ก', '้'] : List Char).getD
          ((consonantPositions ['ก', '่', 'ก', '้'] 0 2).getD jm 0 + 1) default) ∧
      ∀ j ∈ tonedOf ['ก', '่', 'ก', '้'] (consonantPositions ['ก', '่', 'ก', '้'] 0 2),
        (consonantPositions ['ก', '่', 'ก', '้'] 0 2).getD j 0 + 1 ∈
          (Foundation.mk ['ก', 'ก'] (some '้') (some 1) [0, 1, 2, 3]).positions :=
  C6_last_tone_wins ['ก'] ['ก', '่', 'ก', '้'] 0 2
    (Foundation.mk ['ก', 'ก'] (some '้') (some 1) [0, 1, 2, 3])
    (by decide) 0 1 (by decide) (by decide) (by decide)

/-- C4: exhaustiveness — every structurally valid single-syllable cover (a
successful template match on a catalog pattern, at some start offset and
cluster width in {1,2,3} for `x`-patterns, whose consumed positions are
exactly all positions of the text) appears, up to deduplication, among the
returned readings. -/
theorem C4_exhaustive (fset : List Char) (patterns : List (List Char)) (text pat : List Char)
    (s : Int) (c : Nat) (m : PMatch)
    (hpat : pat ∈ patterns)
    (hc : ('x' ∈ pat → 1 ≤ c ∧ c ≤ 3) ∧ ('x' ∉ pat → c = 0))
    (htm : try_match_pattern_with_foundation fset text s pat ∅ c = some m)
    (hcov : m.positions.toFinset = Finset.range text.length)
    (hne : text ≠ []) :
    ∃ rd ∈ (findThaiGraphemeOrderDomain fset patterns text).readings,
      rd.syllables = [toSyllable m] := by
  have hlen : 1 ≤ text.length := List.length_pos.mpr hne
  have hxc : 'x' ∈ pat → 1 ≤ c := fun hx => (hc.1 hx).1
  -- an empty pattern consumes nothing, so it cannot cover a nonempty text
  have hpne : pat ≠ [] := by
    rintro rfl
    obtain ⟨st, hst, -, -, -, -, hpos⟩ := try_match_elim htm
    simp only [try_matchAux] at hst
    cases hst
    rw [hpos] at hcov
    simp only [emptyMState, List.toFinset_nil] at hcov
    have : (0 : Nat) ∈ (∅ : Finset Nat) := by
      rw [hcov, Finset.mem_range]
      omega
    exact absurd this (by simp)
  obtain ⟨k, hk, hkb, hk1⟩ := try_match_positions hxc htm
  have hkpos : 1 ≤ k := hk1 hpne
  -- a negative start offset would have failed the very first bounds check
  have hs0 : 0 ≤ s := by
    by_contra hneg
    push_neg at hneg
    obtain ⟨st, hst, -⟩ := try_match_elim htm
    rcases pat with _ | ⟨p, ps⟩
    · exact hpne rfl
    · rw [try_matchAux, if_pos (Or.inl hneg)] at hst
      exact absurd hst (by simp)
  -- a full cover must start at position 0 and span the whole text
  have h0mem : (0 : Nat) ∈ m.positions := by
    have : (0 : Nat) ∈ m.positions.toFinset := by
      rw [hcov, Finset.mem_range]
      omega
    exact List.mem_toFinset.mp this
  have hsnat : s.toNat = 0 := by
    rw [hk, List.mem_range'_1] at h0mem
    omega
  have hs : s = 0 := by omega
  have hkeq : k = text.length := by
    have : m.positions.toFinset = Finset.range k := by
      rw [hk, hsnat, ← List.range_eq_range']
      ext q
      simp
    rw [this] at hcov
    have := congrArg Finset.card hcov
    simpa using this
  -- the cluster width is within the attempted range
  have hcons : ('x' ∈ pat ∧ 1 ≤ c ∧ c ≤ min 3 text.length) ∨ ('x' ∉ pat ∧ c = 0) := by
    by_cases hx : 'x' ∈ pat
    · refine Or.inl ⟨hx, hxc hx, ?_⟩
      obtain ⟨st, hst, -, -, -, -, -⟩ := try_match_elim htm
      obtain ⟨f, s', -, hmf⟩ := try_matchAux_x_cluster fset text c pat s _ st hx hst
      rw [match_foundation] at hmf
      split_ifs at hmf with hg
      obtain ⟨k1, hk1', hk1c, hk1b⟩ :=
        match_foundationAux_positions fset text c s'.toNat _ f hmf
      have hck : c ≤ text.length := by
        rcases Nat.eq_zero_or_pos k1 with hz | hpos1
        · omega
        · have hlast : s'.toNat + k1 - 1 ∈ List.range' s'.toNat k1 := by
            rw [List.mem_range'_1]
            omega
          have := hk1b _ hlast
          omega
      have hc3 : c ≤ 3 := (hc.1 hx).2
      omega
    · exact Or.inr ⟨hx, hc.2 hx⟩
  have hF2 : m ∈ find_pattern_matches fset text pat ∅ :=
    find_pattern_matches_complete (by omega) (by omega) hcons htm (by simp)
  -- the search finds the cover in one transition from the initial state
  have hmem_raw : [m] ∈ rawReadings fset patterns text := by
    rw [rawReadings]
    simp only [explore_segmentations]
    rw [if_neg (by simp; omega)]
    rw [skipUsed_empty]
    rw [if_neg (by omega)]
    refine List.mem_flatMap.mpr ⟨pat, hpat, ?_⟩
    refine List.mem_flatMap.mpr ⟨m, hF2, ?_⟩
    rw [if_pos h0mem]
    obtain ⟨l, hl⟩ : ∃ l, text.length = l + 1 := ⟨text.length - 1, by omega⟩
    rw [hl]
    simp only [explore_segmentations]
    have hcard : ((∅ : Finset Nat) ∪ m.positions.toFinset).card = text.length := by
      rw [Finset.empty_union, hcov, Finset.card_range]
    rw [if_pos hcard, if_pos (by simp)]
    simp
  refine ⟨buildReading [toSyllable m], ?_, by simp [buildReading]⟩
  rw [findThaiGraphemeOrderDomain, if_neg hne]
  dsimp only
  refine List.mem_map.mpr ⟨[toSyllable m], ?_, rfl⟩
  rw [mem_dedupReadings]
  refine ⟨?_, by simp⟩
  rw [allProjReadings]
  exact List.mem_map.mpr ⟨[m], hmem_raw, rfl⟩

/-- Witness for C4 at the concrete input `"ยา"`, pattern `"xา"`, cluster 1. -/
theorem C4_exhaustive_witness :
    ∃ rd ∈ (findThaiGraphemeOrderDomain ['ย'] [['x', 'า']] ['ย', 'า']).readings,
      rd.syllables =
        [toSyllable (PMatch.mk ['x', 'า'] (some ⟨['ย'], none, none, [0]⟩) ['า'] none [0, 1])] :=
  C4_exhaustive ['ย'] [['x', 'า']] ['ย', 'า'] ['x', 'า'] 0 1
    (PMatch.mk ['x', 'า'] (some ⟨['ย'], none, none, [0]⟩) ['า'] none [0, 1])
    (by decide) (by decide) (by decide) (by decide) (by decide)

/-! ### Structural equality of readings (C1)

The spec's deduplication key: template string, foundation container contents
(consonant sequence, tone, tone owner), vowel literal text, and final
container contents — explicitly *without* the position lists. -/

/-- Contents comparison of optional foundation containers: consonants, tone
and tone owner, ignoring the position list. -/
def contentsEqF : Option Foundation → Option Foundation → Bool
  | none, none => true
  | some a, some b =>
    decide (a.consonants = b.consonants) && decide (a.tone = b.tone) &&
      decide (a.tone_owner = b.tone_owner)
  | _, _ => false

/-- Structural equality of stored syllables per the spec's deduplication key. -/
def structEqSyl (s t : Syllable) : Bool :=
  decide (s.pattern = t.pattern) && contentsEqF s.foundation t.foundation &&
    decide (s.vowel = t.vowel) && contentsEqF s.final t.final

/-- Element-wise structural equality of readings. -/
def structEqReading : List Syllable → List Syllable → Bool
  | [], [] => true
  | s :: ss, t :: ts => structEqSyl s t && structEqReading ss ts
  | _, _ => false

theorem contentsEqF_refl (o : Option Foundation) : contentsEqF o o = true := by
  cases o <;> simp [contentsEqF]

theorem structEqSyl_refl (s : Syllable) : structEqSyl s s = true := by
  simp [structEqSyl, contentsEqF_refl]

theorem structEqReading_refl (r : List Syllable) : structEqReading r r = true := by
  induction r with
  | nil => rfl
  | cons s t ih => simp [structEqReading, structEqSyl_refl, ih]

/-- Contents-equal `some` containers agree on consonants, tone and owner. -/
theorem contentsEqF_some {a b : Foundation} (h : contentsEqF (some a) (some b) = true) :
    a.consonants = b.consonants ∧ a.tone = b.tone ∧ a.tone_owner = b.tone_owner := by
  have h' := h
  simp only [contentsEqF, Bool.and_eq_true, decide_eq_true_eq] at h'
  exact ⟨h'.1.1, h'.1.2, h'.2⟩

/-- A successful `match_foundation` call returns exactly the requested number
of consonants. -/
theorem match_foundation_consonant_count {fset text : List Char} {s : Int} {c : Nat}
    {f : Foundation} (h : match_foundation fset text s c = some f) :
    f.consonants.length = c := by
  rw [match_foundation] at h
  split_ifs at h with hg
  obtain ⟨cs, hcs, hlen, -⟩ := match_foundationAux_consonants fset text c s.toNat _ f h
  rw [hcs]
  simp [emptyFoundation, hlen]

/-- A successful match whose positions cover the whole (nonempty) text starts
at offset 0, which is among its consumed positions. -/
theorem cover_start_zero {fset text pat : List Char} {used : Finset Nat} {s : Int} {c : Nat}
    {m : PMatch}
    (hxc : 'x' ∈ pat → 1 ≤ c)
    (htm : try_match_pattern_with_foundation fset text s pat used c = some m)
    (hcov : m.positions.toFinset = Finset.range text.length)
    (hlen : 1 ≤ text.length) :
    s = 0 ∧ (0 : Nat) ∈ m.positions := by
  have hpne : pat ≠ [] := by
    rintro rfl
    obtain ⟨st, hst, -, -, -, -, hpos⟩ := try_match_elim htm
    simp only [try_matchAux] at hst
    cases hst
    rw [hpos] at hcov
    simp only [emptyMState, List.toFinset_nil] at hcov
    have : (0 : Nat) ∈ (∅ : Finset Nat) := by
      rw [hcov, Finset.mem_range]
      omega
    exact absurd this (by simp)
  obtain ⟨k, hk, hkb, hk1⟩ := try_match_positions hxc htm
  have hs0 : 0 ≤ s := by
    by_contra hneg
    push_neg at hneg
    obtain ⟨st, hst, -⟩ := try_match_elim htm
    rcases pat with _ | ⟨p, ps⟩
    · exact hpne rfl
    · rw [try_matchAux, if_pos (Or.inl hneg)] at hst
      exact absurd hst (by simp)
  have h0mem : (0 : Nat) ∈ m.positions := by
    have : (0 : Nat) ∈ m.positions.toFinset := by
      rw [hcov, Finset.mem_range]
      omega
    exact List.mem_toFinset.mp this
  have hsnat : s.toNat = 0 := by
    rw [hk, List.mem_range'_1] at h0mem
    omega
  refine ⟨by omega, ?_⟩
  have : (0 : Nat) ∈ m.positions.toFinset := by
    rw [hcov, Finset.mem_range]
    omega
  exact List.mem_toFinset.mp this

/-- Determinism of full covers: two provenance-checked matches that each cover
the whole text and agree on the structural key (template, foundation contents,
vowel text, final contents) are the *same* match — in particular their
position lists agree, even though those are not part of the key. -/
theorem cover_match_determined {fset : List Char} {patterns : List (List Char)}
    {text : List Char} {m1 m2 : PMatch}
    (hp1 : matchProvenance fset patterns text m1)
    (hp2 : matchProvenance fset patterns text m2)
    (hcov1 : m1.positions.toFinset = Finset.range text.length)
    (hcov2 : m2.positions.toFinset = Finset.range text.length)
    (hlen : 1 ≤ text.length)
    (hse : structEqSyl (toSyllable m1) (toSyllable m2) = true) :
    m1 = m2 := by
  obtain ⟨pat1, hpat1, s1, c1, hcons1, htm1⟩ := hp1
  obtain ⟨pat2, hpat2, s2, c2, hcons2, htm2⟩ := hp2
  obtain ⟨st1, hst1, hpe1, hfo1, -, -, -⟩ := try_match_elim htm1
  obtain ⟨st2, hst2, hpe2, hfo2, -, -, -⟩ := try_match_elim htm2
  simp only [structEqSyl, toSyllable, Bool.and_eq_true, decide_eq_true_eq] at hse
  obtain ⟨⟨⟨hsp, hsf⟩, hsv⟩, hsl⟩ := hse
  have hpe : pat1 = pat2 := by rw [← hpe1, ← hpe2, hsp]
  subst hpe
  have hxc1 : 'x' ∈ pat1 → 1 ≤ c1 := by
    rcases hcons1 with ⟨-, hc, -⟩ | ⟨hnx, -⟩
    · exact fun _ => hc
    · exact fun hx => absurd hx hnx
  have hxc2 : 'x' ∈ pat1 → 1 ≤ c2 := by
    rcases hcons2 with ⟨-, hc, -⟩ | ⟨hnx, -⟩
    · exact fun _ => hc
    · exact fun hx => absurd hx hnx
  obtain ⟨hs1, -⟩ := cover_start_zero hxc1 htm1 hcov1 hlen
  obtain ⟨hs2, -⟩ := cover_start_zero hxc2 htm2 hcov2 hlen
  subst hs1
  subst hs2
  have hc : c1 = c2 := by
    by_cases hx : 'x' ∈ pat1
    · obtain ⟨f1, s1', hf1, hmf1⟩ := try_matchAux_x_cluster fset text c1 pat1 _ _ st1 hx hst1
      obtain ⟨f2, s2', hf2, hmf2⟩ := try_matchAux_x_cluster fset text c2 pat1 _ _ st2 hx hst2
      have hm1f : m1.foundation = some f1 := by rw [hfo1, hf1]
      have hm2f : m2.foundation = some f2 := by rw [hfo2, hf2]
      rw [hm1f, hm2f] at hsf
      obtain ⟨hcons, -, -⟩ := contentsEqF_some hsf
      have := match_foundation_consonant_count hmf1
      have := match_foundation_consonant_count hmf2
      rw [← match_foundation_consonant_count hmf1, ← match_foundation_consonant_count hmf2,
        hcons]
    · rcases hcons1 with ⟨hx', -⟩ | ⟨-, hc1z⟩
      · exact absurd hx' hx
      · rcases hcons2 with ⟨hx', -⟩ | ⟨-, hc2z⟩
        · exact absurd hx' hx
        · rw [hc1z, hc2z]
  subst hc
  have hinj := htm1.symm.trans htm2
  injection hinj with hv

/-- A duplicate-free list in which every element satisfying `p` equals the
member `a`, with `p a` true, filters to a one-element list. -/
theorem filter_length_eq_one {α : Type} {l : List α} {p : α → Bool} {a : α}
    (hnd : l.Nodup) (ha : a ∈ l) (hpa : p a = true)
    (huniq : ∀ x ∈ l, p x = true → x = a) :
    (l.filter p).length = 1 := by
  have h1 : a ∈ l.filter p := List.mem_filter.mpr ⟨ha, hpa⟩
  have h2 : ∀ x ∈ l.filter p, x = a := fun x hx =>
    huniq x (List.mem_filter.mp hx).1 (List.mem_filter.mp hx).2
  have h3 : (l.filter p).Nodup := hnd.filter p
  rcases hfl : l.filter p with _ | ⟨b, rest⟩
  · rw [hfl] at h1
    exact absurd h1 (by simp)
  · rcases rest with _ | ⟨x, rest'⟩
    · rfl
    · rw [hfl] at h2 h3
      have hb : b = a := h2 b (List.mem_cons_self _ _)
      have hx : x = a := h2 x (List.mem_cons_of_mem _ (List.mem_cons_self _ _))
      rw [List.nodup_cons] at h3
      exact absurd (by rw [hb, ← hx]; exact List.mem_cons_self _ _) h3.1

/-- C1: deduplication by structural equality — two raw readings produced by
the search whose syllable lists agree element-wise on template, foundation
container contents, vowel literal text and final container contents are in
fact identical (their recorded position lists cannot differ, full covers
being determined by the structural key), and the assembled result contains
exactly one reading for the pair. -/
theorem C1_dedup_structural (fset : List Char) (patterns : List (List Char)) (text : List Char)
    (r1 r2 : List Syllable)
    (h1 : r1 ∈ allProjReadings fset patterns text)
    (h2 : r2 ∈ allProjReadings fset patterns text)
    (hse : structEqReading r1 r2 = true) :
    r1 = r2 ∧
    ((findThaiGraphemeOrderDomain fset patterns text).readings.filter
      (fun rd => structEqReading rd.syllables r1)).length = 1 := by
  by_cases hne : text = []
  · subst hne
    rw [allProjReadings, rawReadings] at h1
    simp [explore_segmentations] at h1
  · have hlen : 1 ≤ text.length := List.length_pos.mpr hne
    rw [allProjReadings, List.mem_map] at h1 h2
    obtain ⟨ms1, hms1, rfl⟩ := h1
    obtain ⟨ms2, hms2, rfl⟩ := h2
    rw [rawReadings] at hms1 hms2
    have hl1 := explore_length_one fset patterns text _ _ _ _ ms1 hms1
    have hl2 := explore_length_one fset patterns text _ _ _ _ ms2 hms2
    obtain ⟨m1, rfl⟩ := List.length_eq_one.mp hl1
    obtain ⟨m2, rfl⟩ := List.length_eq_one.mp hl2
    obtain ⟨-, hcov1, hprov1⟩ := explore_inv fset patterns text _ _ _ _ (by simp) (by simp)
      (by simp) (by simp) _ hms1
    obtain ⟨-, hcov2, hprov2⟩ := explore_inv fset patterns text _ _ _ _ (by simp) (by simp)
      (by simp) (by simp) _ hms2
    have hc1 : m1.positions.toFinset = Finset.range text.length := by simpa using hcov1
    have hc2 : m2.positions.toFinset = Finset.range text.length := by simpa using hcov2
    have hp1 : matchProvenance fset patterns text m1 := hprov1 m1 (by simp)
    have hp2 : matchProvenance fset patterns text m2 := hprov2 m2 (by simp)
    simp only [List.map_cons, List.map_nil, structEqReading, Bool.and_eq_true] at hse
    have hm12 : m1 = m2 := cover_match_determined hp1 hp2 hc1 hc2 hlen hse.1
    subst hm12
    refine ⟨rfl, ?_⟩
    rw [findThaiGraphemeOrderDomain, if_neg hne]
    dsimp only
    rw [List.filter_map, List.length_map]
    refine filter_length_eq_one (dedupReadings_nodup _ _)
      (a := [toSyllable m1]) ?_ ?_ ?_
    · rw [mem_dedupReadings]
      refine ⟨?_, by simp⟩
      rw [allProjReadings]
      exact List.mem_map.mpr ⟨[m1], by rw [rawReadings]; exact hms1, rfl⟩
    · simp [Function.comp, buildReading, structEqReading_refl]
    · intro u hu hpu
      rw [mem_dedupReadings] at hu
      obtain ⟨hu1, -⟩ := hu
      rw [allProjReadings, List.mem_map] at hu1
      obtain ⟨msu, hmsu, rfl⟩ := hu1
      rw [rawReadings] at hmsu
      have hlu := explore_length_one fset patterns text _ _ _ _ msu hmsu
      obtain ⟨mu, rfl⟩ := List.length_eq_one.mp hlu
      obtain ⟨-, hcovu, hprovu⟩ := explore_inv fset patterns text _ _ _ _ (by simp) (by simp)
        (by simp) (by simp) _ hmsu
      have hcu : mu.positions.toFinset = Finset.range text.length := by simpa using hcovu
      have hpu' : matchProvenance fset patterns text mu := hprovu mu (by simp)
      simp only [Function.comp, buildReading, List.map_cons, List.map_nil, structEqReading,
        Bool.and_eq_true] at hpu
      have : mu = m1 := cover_match_determined hpu' hp1 hcu hc1 hlen hpu.1
      rw [this]
      rfl

/-- Witness for C1 at the concrete input `"ยา"` with catalog `{"xา"}`. -/
theorem C1_dedup_structural_witness :
    ([Syllable.mk (some ⟨['ย'], none, none, [0]⟩) ['า'] none ['x', 'า']] =
      [Syllable.mk (some ⟨['ย'], none, none, [0]⟩) ['า'] none ['x', 'า']]) ∧
    ((findThaiGraphemeOrderDomain ['ย'] [['x', 'า']] ['ย', 'า']).readings.filter
      (fun rd => structEqReading rd.syllables
        [Syllable.mk (some ⟨['ย'], none, none, [0]⟩) ['า'] none ['x', 'า']])).length = 1 :=
  C1_dedup_structural ['ย'] [['x', 'า']] ['ย', 'า']
    [Syllable.mk (some ⟨['ย'], none, none, [0]⟩) ['า'] none ['x', 'า']]
    [Syllable.mk (some ⟨['ย'], none, none, [0]⟩) ['า'] none ['x', 'า']]
    (by decide) (by decide) (by decide)

end ThaiRO
